import Mathlib

/-! Shallow embedding of the symbolic computation in
`notebooks/4_noded_square.ipynb`: shape functions (`shape4`),
strain-displacement matrix (`stdm4`), plane-stress constitutive matrix
(`umat`), and the element stiffness matrix `K` obtained by integrating
every entry of `Bᵀ C B` over the square `[-h, h] × [-h, h]`.

The notebook works with sympy expressions in the space variables
`x, y`.  Every expression that actually occurs there is a polynomial of
degree at most 2 in each variable, so we represent the symbolic
expressions by explicit coefficient records:

* `Bilin`  — polynomials `c1 + cx·x + cy·y + cxy·x·y` (the shape functions);
* `Aff`    — polynomials `a0 + ax·x + ay·y` (their partial derivatives,
  i.e. the entries of the strain-displacement matrix `B`);
* `Quad`   — polynomials spanned by `1, x, y, x², x·y, y²` (the entries
  of the stiffness integrand `Bᵀ C B`, products of two `Aff`s).

`sym.diff` is embedded as the formal derivative `Bilin.diffX` /
`Bilin.diffY` (certified against Mathlib's `HasDerivAt` below), and the
definite integral `sym.integrate(·, (x,-h,h), (y,-h,h))` as the exact
closed-form monomial integrals `monoInt` (certified against Mathlib's
interval integral below). -/

/-- Polynomial `c1 + cx·x + cy·y + cxy·x·y`, the shape of the bilinear
shape functions. -/
structure Bilin where
  c1 : ℚ
  cx : ℚ
  cy : ℚ
  cxy : ℚ
deriving DecidableEq

/-- Value of a `Bilin` at a point. -/
def Bilin.eval (b : Bilin) (x y : ℚ) : ℚ :=
  b.c1 + b.cx * x + b.cy * y + b.cxy * (x * y)

/-- Scalar multiple of a `Bilin` (the factor `1/(4 h²)` in `shape4`). -/
def Bilin.scale (c : ℚ) (b : Bilin) : Bilin :=
  ⟨c * b.c1, c * b.cx, c * b.cy, c * b.cxy⟩

/-- The product `(a + b·x) * (c + d·y)` expanded as a `Bilin`; the four
numerators in `shape4` all have this form. -/
def bilinProd (a b c d : ℚ) : Bilin :=
  ⟨a * c, b * c, a * d, b * d⟩

/-- Embedding of `shape4(x, y, h)` from the notebook:
`N = 1/(4*h**2) * Matrix([(h+x)*(h+y), (h-x)*(h+y), (h-x)*(h-y), (h+x)*(h-y)])`. -/
def shape4 (h : ℚ) : Fin 4 → Bilin := fun i =>
  Bilin.scale (1 / (4 * h ^ 2))
    (![bilinProd h 1 h 1,
       bilinProd h (-1) h 1,
       bilinProd h (-1) h (-1),
       bilinProd h 1 h (-1)] i)

/-- Polynomial `a0 + ax·x + ay·y`, the shape of the entries of the
strain-displacement matrix `B`. -/
structure Aff where
  a0 : ℚ
  ax : ℚ
  ay : ℚ
deriving DecidableEq

/-- Value of an `Aff` at a point. -/
def Aff.eval (p : Aff) (x y : ℚ) : ℚ :=
  p.a0 + p.ax * x + p.ay * y

/-- The zero entry of the matrix `B` (`sym.zeros(3,8)` initialisation). -/
def Aff.zero : Aff := ⟨0, 0, 0⟩

/-- Formal partial derivative in `x` of a bilinear polynomial; embeds
`sym.diff(N[i], x)`. -/
def Bilin.diffX (b : Bilin) : Aff := ⟨b.cx, 0, b.cxy⟩

/-- Formal partial derivative in `y` of a bilinear polynomial; embeds
`sym.diff(N[i], y)`. -/
def Bilin.diffY (b : Bilin) : Aff := ⟨b.cy, b.cxy, 0⟩

/-- Embedding of `stdm4(x, y, h)`: the 3×8 strain-displacement matrix.
For node `i = c/2` the loop sets `B[0,2i] = dN_i/dx`, `B[1,2i+1] = dN_i/dy`,
`B[2,2i] = dN_i/dy`, `B[2,2i+1] = dN_i/dx`; every other entry stays zero. -/
def stdm4 (h : ℚ) : Fin 3 → Fin 8 → Aff := fun r c =>
  let N := shape4 h
  let i : Fin 4 := ⟨c.val / 2, by omega⟩
  if c.val % 2 = 0 then
    ![Bilin.diffX (N i), Aff.zero, Bilin.diffY (N i)] r
  else
    ![Aff.zero, Bilin.diffY (N i), Bilin.diffX (N i)] r

/-- Embedding of `umat(nu, E)`: the 3×3 plane-stress constitutive matrix
with `G = E/(1-nu**2)`, `mnu = (1-nu)/2.0`, entries
`C[0,0]=C[1,1]=G`, `C[0,1]=C[1,0]=nu*G`, `C[2,2]=G*mnu`, rest zero. -/
def umat (nu E : ℚ) : Fin 3 → Fin 3 → ℚ := fun a b =>
  let G := E / (1 - nu ^ 2)
  let mnu := (1 - nu) / 2
  ![![G, nu * G, 0],
    ![nu * G, G, 0],
    ![0, 0, G * mnu]] a b

/-- Polynomial `c00 + c10·x + c01·y + c20·x² + c11·x·y + c02·y²`, the
shape of the entries of the stiffness integrand `Bᵀ C B`. -/
structure Quad where
  c00 : ℚ
  c10 : ℚ
  c01 : ℚ
  c20 : ℚ
  c11 : ℚ
  c02 : ℚ
deriving DecidableEq

/-- Value of a `Quad` at a point. -/
def Quad.eval (q : Quad) (x y : ℚ) : ℚ :=
  q.c00 + q.c10 * x + q.c01 * y + q.c20 * x ^ 2 + q.c11 * (x * y) + q.c02 * y ^ 2

/-- Sum of two `Quad`s. -/
def Quad.add (p q : Quad) : Quad :=
  ⟨p.c00 + q.c00, p.c10 + q.c10, p.c01 + q.c01,
   p.c20 + q.c20, p.c11 + q.c11, p.c02 + q.c02⟩

/-- Scalar multiple of a `Quad`. -/
def Quad.scale (c : ℚ) (q : Quad) : Quad :=
  ⟨c * q.c00, c * q.c10, c * q.c01, c * q.c20, c * q.c11, c * q.c02⟩

/-- Product of two affine polynomials, expanded as a `Quad`. -/
def Aff.mul (p q : Aff) : Quad :=
  ⟨p.a0 * q.a0,
   p.a0 * q.ax + p.ax * q.a0,
   p.a0 * q.ay + p.ay * q.a0,
   p.ax * q.ax,
   p.ax * q.ay + p.ay * q.ax,
   p.ay * q.ay⟩

/-- Entry `(i,j)` of the matrix product `Bᵀ C B` (`K_int = B.T*C*B` in the
notebook): `Σ_{a,b} C[a,b] · B[a,i] · B[b,j]` with `u a = B[a,i]`,
`v b = B[b,j]`, written out over `a, b ∈ {0,1,2}`. -/
def entryBtCB (C : Fin 3 → Fin 3 → ℚ) (u v : Fin 3 → Aff) : Quad :=
  Quad.add (Quad.scale (C 0 0) ((u 0).mul (v 0)))
    (Quad.add (Quad.scale (C 0 1) ((u 0).mul (v 1)))
      (Quad.add (Quad.scale (C 0 2) ((u 0).mul (v 2)))
        (Quad.add (Quad.scale (C 1 0) ((u 1).mul (v 0)))
          (Quad.add (Quad.scale (C 1 1) ((u 1).mul (v 1)))
            (Quad.add (Quad.scale (C 1 2) ((u 1).mul (v 2)))
              (Quad.add (Quad.scale (C 2 0) ((u 2).mul (v 0)))
                (Quad.add (Quad.scale (C 2 1) ((u 2).mul (v 1)))
                  (Quad.scale (C 2 2) ((u 2).mul (v 2))))))))))

/-- Exact value of the definite integral `∫_{-h}^{h} t^k dt`; this is the
closed form sympy's `integrate` produces for a monomial. -/
def monoInt (k : ℕ) (h : ℚ) : ℚ :=
  (h ^ (k + 1) - (-h) ^ (k + 1)) / ((k : ℚ) + 1)

/-- Embedding of `sym.integrate(K_int[i,j], (x,-h,h), (y,-h,h))`: the
double integral of a `Quad` over the square `[-h,h] × [-h,h]`, computed
monomial by monomial via `monoInt`. -/
def Quad.integrateSquare (q : Quad) (h : ℚ) : ℚ :=
  q.c00 * (monoInt 0 h * monoInt 0 h) +
  q.c10 * (monoInt 1 h * monoInt 0 h) +
  q.c01 * (monoInt 0 h * monoInt 1 h) +
  q.c20 * (monoInt 2 h * monoInt 0 h) +
  q.c11 * (monoInt 1 h * monoInt 1 h) +
  q.c02 * (monoInt 0 h * monoInt 2 h)

/-- The stiffness integrand `K_int = B.T*C*B`, entry by entry. -/
def K_int (nu E h : ℚ) : Fin 8 → Fin 8 → Quad := fun i j =>
  entryBtCB (umat nu E) (fun a => stdm4 h a i) (fun a => stdm4 h a j)

/-- The stiffness matrix `K`: every entry of `K_int` integrated over
`x ∈ [-h,h]`, `y ∈ [-h,h]`. -/
def K (nu E h : ℚ) : Fin 8 → Fin 8 → ℚ := fun i j =>
  (K_int nu E h i j).integrateSquare h

/-- The 8×8 reference matrix printed by the notebook
(`print(sym.N(kk, 3))`), read off to the 3 significant digits shown. -/
def refMatrix : Fin 8 → Fin 8 → ℚ :=
  ![![133/100, 1/2, -833/1000, 0, -667/1000, -1/2, 167/1000, 0],
    ![1/2, 133/100, 0, 167/1000, -1/2, -667/1000, 0, -833/1000],
    ![-833/1000, 0, 133/100, -1/2, 167/1000, 0, -667/1000, 1/2],
    ![0, 167/1000, -1/2, 133/100, 0, -833/1000, 1/2, -667/1000],
    ![-667/1000, -1/2, 167/1000, 0, 133/100, 1/2, -833/1000, 0],
    ![-1/2, -667/1000, 0, -833/1000, 1/2, 133/100, 0, 167/1000],
    ![167/1000, 0, -667/1000, 1/2, -833/1000, 0, 133/100, -1/2],
    ![0, -833/1000, 1/2, -667/1000, 0, 167/1000, -1/2, 133/100]]

/-- Half-unit-in-the-last-place tolerance for agreement with a value
printed to 3 significant digits (entries of `refMatrix` lie in
`[0.1, 10)` or are exact): `1/200` for magnitudes at least 1, `1/2000`
below that. -/
def tol3sig (r : ℚ) : ℚ := if r ≤ -1 ∨ 1 ≤ r then 1 / 200 else 1 / 2000

/-- Exact rational value of `K` at the reference parameters
`nu = 1/3`, `E = 8/3`, `h = 1`. -/
def Kref : Fin 8 → Fin 8 → ℚ :=
  ![![4/3, 1/2, -5/6, 0, -2/3, -1/2, 1/6, 0],
    ![1/2, 4/3, 0, 1/6, -1/2, -2/3, 0, -5/6],
    ![-5/6, 0, 4/3, -1/2, 1/6, 0, -2/3, 1/2],
    ![0, 1/6, -1/2, 4/3, 0, -5/6, 1/2, -2/3],
    ![-2/3, -1/2, 1/6, 0, 4/3, 1/2, -5/6, 0],
    ![-1/2, -2/3, 0, -5/6, 1/2, 4/3, 0, 1/6],
    ![1/6, 0, -2/3, 1/2, -5/6, 0, 4/3, -1/2],
    ![0, -5/6, 1/2, -2/3, 0, 1/6, -1/2, 4/3]]

/-- Quadratic form `vᵀ M v` of an 8×8 matrix. -/
def quadForm (M : Fin 8 → Fin 8 → ℚ) (v : Fin 8 → ℚ) : ℚ :=
  ∑ i, ∑ j, v i * M i j * v j

/-- Matrix-vector product of an 8×8 matrix. -/
def mulVec8 (M : Fin 8 → Fin 8 → ℚ) (v : Fin 8 → ℚ) : Fin 8 → ℚ := fun i =>
  ∑ j, M i j * v j

/-- Rigid translation of the element in the x direction, in the
interleaved DOF ordering `(u₁,v₁,…,u₄,v₄)`. -/
def transX : Fin 8 → ℚ := ![1, 0, 1, 0, 1, 0, 1, 0]

/-- Rigid translation of the element in the y direction. -/
def transY : Fin 8 → ℚ := ![0, 1, 0, 1, 0, 1, 0, 1]

/-- Infinitesimal rigid rotation: nodal displacement `(-y_i, x_i)` at the
nodes `(1,1), (-1,1), (-1,-1), (1,-1)` (for `h = 1`). -/
def rotMode : Fin 8 → ℚ := ![-1, 1, -1, -1, 1, -1, 1, 1]

/-- Nodal coordinates of the element, counter-clockwise from `(+h,+h)`. -/
def nodes (h : ℚ) : Fin 4 → ℚ × ℚ :=
  ![(h, h), (-h, h), (-h, -h), (h, -h)]

/-- Column scaling relating `stdm4` at half-width `h` to `stdm4` at
half-width `1`. -/
def scaleAff (h : ℚ) (p : Aff) : Aff :=
  ⟨p.a0 / h, p.ax / h ^ 2, p.ay / h ^ 2⟩

/-- The strain-displacement matrix `stdm4` evaluated at `h = 1`, written
out as an explicit table (proved equal to `stdm4 1` below). -/
def B1 : Fin 3 → Fin 8 → Aff :=
  ![![⟨1/4, 0, 1/4⟩, ⟨0, 0, 0⟩, ⟨-1/4, 0, -1/4⟩, ⟨0, 0, 0⟩,
     ⟨-1/4, 0, 1/4⟩, ⟨0, 0, 0⟩, ⟨1/4, 0, -1/4⟩, ⟨0, 0, 0⟩],
    ![⟨0, 0, 0⟩, ⟨1/4, 1/4, 0⟩, ⟨0, 0, 0⟩, ⟨1/4, -1/4, 0⟩,
     ⟨0, 0, 0⟩, ⟨-1/4, 1/4, 0⟩, ⟨0, 0, 0⟩, ⟨-1/4, -1/4, 0⟩],
    ![⟨1/4, 1/4, 0⟩, ⟨1/4, 0, 1/4⟩, ⟨1/4, -1/4, 0⟩, ⟨-1/4, 0, -1/4⟩,
     ⟨-1/4, 1/4, 0⟩, ⟨-1/4, 0, 1/4⟩, ⟨-1/4, -1/4, 0⟩, ⟨1/4, 0, -1/4⟩]]

/-- The constitutive matrix `umat` evaluated at the reference parameters
`nu = 1/3`, `E = 8/3` (so `G = 3`), written out as an explicit table. -/
def Cref : Fin 3 → Fin 3 → ℚ := ![![3, 1, 0], ![1, 3, 0], ![0, 0, 1]]

/-- Real-number evaluation of a `Quad`, for certifying the embedded
integration against Mathlib's interval integral. -/
def Quad.evalR (q : Quad) (x y : ℝ) : ℝ :=
  (q.c00 : ℝ) + (q.c10 : ℝ) * x + (q.c01 : ℝ) * y + (q.c20 : ℝ) * x ^ 2 +
  (q.c11 : ℝ) * (x * y) + (q.c02 : ℝ) * y ^ 2

theorem bilinProd_eval (a b c d x y : ℚ) :
    (bilinProd a b c d).eval x y = (a + b * x) * (c + d * y) := by
  simp only [bilinProd, Bilin.eval]
  ring

theorem Bilin.scale_eval (c : ℚ) (b : Bilin) (x y : ℚ) :
    (Bilin.scale c b).eval x y = c * b.eval x y := by
  simp only [Bilin.scale, Bilin.eval]
  ring

/-- The formal derivative `Bilin.diffX` is the honest derivative of the
evaluation map in the first variable: it correctly embeds `sym.diff`. -/
theorem Bilin.hasDerivAt_diffX (b : Bilin) (x y : ℚ) :
    HasDerivAt (fun t : ℚ => b.eval t y) ((b.diffX).eval x y) x := by
  have hfun : (fun t : ℚ => b.eval t y)
      = fun t : ℚ => (b.cx + b.cxy * y) * t + (b.c1 + b.cy * y) := by
    funext t
    simp only [Bilin.eval]
    ring
  have hval : (b.diffX).eval x y = b.cx + b.cxy * y := by
    simp only [Bilin.diffX, Aff.eval]
    ring
  rw [hfun, hval]
  simpa using ((hasDerivAt_id x).const_mul (b.cx + b.cxy * y)).add_const
    (b.c1 + b.cy * y)

/-- The formal derivative `Bilin.diffY` is the honest derivative of the
evaluation map in the second variable. -/
theorem Bilin.hasDerivAt_diffY (b : Bilin) (x y : ℚ) :
    HasDerivAt (fun t : ℚ => b.eval x t) ((b.diffY).eval x y) y := by
  have hfun : (fun t : ℚ => b.eval x t)
      = fun t : ℚ => (b.cy + b.cxy * x) * t + (b.c1 + b.cx * x) := by
    funext t
    simp only [Bilin.eval]
    ring
  have hval : (b.diffY).eval x y = b.cy + b.cxy * x := by
    simp only [Bilin.diffY, Aff.eval]
    ring
  rw [hfun, hval]
  simpa using ((hasDerivAt_id y).const_mul (b.cy + b.cxy * x)).add_const
    (b.c1 + b.cx * x)

/-- The coefficient-level product `Aff.mul` agrees with pointwise
multiplication of values. -/
theorem Aff.mul_eval (p q : Aff) (x y : ℚ) :
    (p.mul q).eval x y = p.eval x y * q.eval x y := by
  simp only [Aff.mul, Aff.eval, Quad.eval]
  ring

/-- Indexing an 8-vector at the literal `5` (missing from the Mathlib
`cons_val` simp set, which stops at `4`). -/
@[simp] theorem vec8_five {α : Type*} (a b c d e f g h : α) :
    ![a, b, c, d, e, f, g, h] (5 : Fin 8) = f := rfl

/-- Indexing an 8-vector at the literal `6`. -/
@[simp] theorem vec8_six {α : Type*} (a b c d e f g h : α) :
    ![a, b, c, d, e, f, g, h] (6 : Fin 8) = g := rfl

/-- Indexing an 8-vector at the literal `7`. -/
@[simp] theorem vec8_seven {α : Type*} (a b c d e f g h : α) :
    ![a, b, c, d, e, f, g, h] (7 : Fin 8) = h := rfl

/-- Numeric value of the literal `2 : Fin 8`. -/
@[simp] theorem fin8_val_two : ((2 : Fin 8) : ℕ) = 2 := rfl

/-- Numeric value of the literal `3 : Fin 8`. -/
@[simp] theorem fin8_val_three : ((3 : Fin 8) : ℕ) = 3 := rfl

/-- Numeric value of the literal `4 : Fin 8`. -/
@[simp] theorem fin8_val_four : ((4 : Fin 8) : ℕ) = 4 := rfl

/-- Numeric value of the literal `5 : Fin 8`. -/
@[simp] theorem fin8_val_five : ((5 : Fin 8) : ℕ) = 5 := rfl

/-- Numeric value of the literal `6 : Fin 8`. -/
@[simp] theorem fin8_val_six : ((6 : Fin 8) : ℕ) = 6 := rfl

/-- Numeric value of the literal `7 : Fin 8`. -/
@[simp] theorem fin8_val_seven : ((7 : Fin 8) : ℕ) = 7 := rfl

set_option maxHeartbeats 4000000

theorem stdm4_one : stdm4 1 = B1 := by
  funext r c
  fin_cases r <;> fin_cases c <;>
    norm_num [stdm4, shape4, bilinProd, Bilin.scale, Bilin.diffX, Bilin.diffY,
      Aff.zero, B1]

theorem umat_ref : umat (1/3) (8/3) = Cref := by
  funext a b
  fin_cases a <;> fin_cases b <;> norm_num [umat, Cref]

theorem Kref_eval (i j : Fin 8) : K (1/3) (8/3) 1 i j = Kref i j := by
  show (entryBtCB (umat (1/3) (8/3)) (fun a => stdm4 1 a i)
    (fun a => stdm4 1 a j)).integrateSquare 1 = Kref i j
  rw [umat_ref, stdm4_one]
  fin_cases i <;> fin_cases j <;>
    norm_num [entryBtCB, B1, Cref, Quad.integrateSquare, monoInt, Quad.add,
      Quad.scale, Aff.mul, Kref]

theorem umat_symm (nu E : ℚ) (a b : Fin 3) : umat nu E a b = umat nu E b a := by
  fin_cases a <;> fin_cases b <;> norm_num [umat]

theorem entryBtCB_symm (C : Fin 3 → Fin 3 → ℚ) (hC : ∀ a b, C a b = C b a)
    (u v : Fin 3 → Aff) : entryBtCB C u v = entryBtCB C v u := by
  have h01 := hC 0 1
  have h02 := hC 0 2
  have h12 := hC 1 2
  simp only [entryBtCB, Quad.add, Quad.scale, Aff.mul, Quad.mk.injEq]
  rw [h01, h02, h12]
  and_intros <;> ring

/-- C2: the stiffness matrix is symmetric for every choice of material
and geometry parameters. -/
theorem K_symmetric (nu E h : ℚ) (hpos : 0 < h) (i j : Fin 8) :
    K nu E h i j = K nu E h j i := by
  show (entryBtCB (umat nu E) (fun a => stdm4 h a i)
    (fun a => stdm4 h a j)).integrateSquare h = _
  rw [entryBtCB_symm (umat nu E) (umat_symm nu E)]
  rfl

theorem K_symmetric_witness :
    0 < (2 : ℚ) ∧ K (1/3) 1 2 0 1 = K (1/3) 1 2 1 0 :=
  ⟨by norm_num, K_symmetric (1/3) 1 2 (by norm_num) 0 1⟩

/-- C3: `shape4` returns exactly the four bilinear shape functions, in
counter-clockwise node order starting at `(+h, +h)`. -/
theorem shape4_formulas (x y h : ℚ) (hpos : 0 < h) :
    (shape4 h 0).eval x y = (h + x) * (h + y) / (4 * h ^ 2) ∧
    (shape4 h 1).eval x y = (h - x) * (h + y) / (4 * h ^ 2) ∧
    (shape4 h 2).eval x y = (h - x) * (h - y) / (4 * h ^ 2) ∧
    (shape4 h 3).eval x y = (h + x) * (h - y) / (4 * h ^ 2) := by
  have hne : h ≠ 0 := ne_of_gt hpos
  refine ⟨?_, ?_, ?_, ?_⟩ <;>
    · simp only [shape4, Bilin.scale, bilinProd, Bilin.eval,
        Matrix.cons_val_zero, Matrix.cons_val_one, Matrix.head_cons,
        Matrix.cons_val_two, Matrix.cons_val_three, Matrix.tail_cons]
      field_simp
      ring

theorem shape4_formulas_witness :
    0 < (3 : ℚ) ∧
    ((shape4 3 0).eval 1 2 = (3 + 1) * (3 + 2) / (4 * 3 ^ 2) ∧
     (shape4 3 1).eval 1 2 = (3 - 1) * (3 + 2) / (4 * 3 ^ 2) ∧
     (shape4 3 2).eval 1 2 = (3 - 1) * (3 - 2) / (4 * 3 ^ 2) ∧
     (shape4 3 3).eval 1 2 = (3 + 1) * (3 - 2) / (4 * 3 ^ 2)) :=
  ⟨by norm_num, shape4_formulas 1 2 3 (by norm_num)⟩

/-- C6: partition of unity, the four shape functions sum to 1. -/
theorem shape4_partition_of_unity (x y h : ℚ) (hpos : 0 < h) :
    (shape4 h 0).eval x y + (shape4 h 1).eval x y +
    (shape4 h 2).eval x y + (shape4 h 3).eval x y = 1 := by
  have hne : h ≠ 0 := ne_of_gt hpos
  simp only [shape4, Bilin.scale, bilinProd, Bilin.eval,
    Matrix.cons_val_zero, Matrix.cons_val_one, Matrix.head_cons,
    Matrix.cons_val_two, Matrix.cons_val_three, Matrix.tail_cons]
  field_simp
  ring

theorem shape4_partition_of_unity_witness :
    0 < (2 : ℚ) ∧
    (shape4 2 0).eval (1/2) (-1/3) + (shape4 2 1).eval (1/2) (-1/3) +
    (shape4 2 2).eval (1/2) (-1/3) + (shape4 2 3).eval (1/2) (-1/3) = 1 :=
  ⟨by norm_num, shape4_partition_of_unity (1/2) (-1/3) 2 (by norm_num)⟩

/-- C7: Kronecker-delta property, each shape function is 1 at its own
node and 0 at the other three. -/
theorem shape4_kronecker (h : ℚ) (hpos : 0 < h) (i j : Fin 4) :
    (shape4 h i).eval (nodes h j).1 (nodes h j).2
      = if i = j then 1 else 0 := by
  have hne : h ≠ 0 := ne_of_gt hpos
  fin_cases i <;> fin_cases j <;>
    simp only [shape4, nodes, Bilin.scale, bilinProd, Bilin.eval,
      Matrix.cons_val_zero, Matrix.cons_val_one, Matrix.head_cons,
      Matrix.cons_val_two, Matrix.cons_val_three, Matrix.tail_cons] <;>
    norm_num [Fin.ext_iff] <;>
    (try field_simp) <;> ring

theorem shape4_kronecker_witness :
    0 < (2 : ℚ) ∧
    (shape4 2 0).eval (nodes 2 0).1 (nodes 2 0).2
      = if (0 : Fin 4) = 0 then 1 else 0 :=
  ⟨by norm_num, shape4_kronecker 2 (by norm_num) 0 0⟩

/-- C5: the constitutive matrix has the plane-stress closed form and is
symmetric. -/
theorem umat_entries (nu E : ℚ) (h1 : -1 < nu) (h2 : nu < 1/2) (h3 : 0 < E) :
    umat nu E 0 0 = E / (1 - nu ^ 2) ∧
    umat nu E 1 1 = E / (1 - nu ^ 2) ∧
    umat nu E 0 1 = nu * (E / (1 - nu ^ 2)) ∧
    umat nu E 1 0 = nu * (E / (1 - nu ^ 2)) ∧
    umat nu E 2 2 = E / (1 - nu ^ 2) * ((1 - nu) / 2) ∧
    umat nu E 0 2 = 0 ∧ umat nu E 2 0 = 0 ∧
    umat nu E 1 2 = 0 ∧ umat nu E 2 1 = 0 ∧
    (∀ a b, umat nu E a b = umat nu E b a) := by
  refine ⟨?_, ?_, ?_, ?_, ?_, ?_, ?_, ?_, ?_, umat_symm nu E⟩ <;> norm_num [umat]

theorem umat_entries_witness :
    (-1 < (0 : ℚ) ∧ (0 : ℚ) < 1/2 ∧ (0 : ℚ) < (1 : ℚ)) ∧
    (umat 0 1 0 0 = 1 / (1 - 0 ^ 2) ∧
     umat 0 1 1 1 = 1 / (1 - 0 ^ 2) ∧
     umat 0 1 0 1 = 0 * (1 / (1 - 0 ^ 2)) ∧
     umat 0 1 1 0 = 0 * (1 / (1 - 0 ^ 2)) ∧
     umat 0 1 2 2 = 1 / (1 - 0 ^ 2) * ((1 - 0) / 2) ∧
     umat 0 1 0 2 = 0 ∧ umat 0 1 2 0 = 0 ∧
     umat 0 1 1 2 = 0 ∧ umat 0 1 2 1 = 0 ∧
     (∀ a b, umat 0 1 a b = umat 0 1 b a)) :=
  ⟨⟨by norm_num, by norm_num, by norm_num⟩,
   umat_entries 0 1 (by norm_num) (by norm_num) (by norm_num)⟩

theorem umat_smul_E (nu E lam : ℚ) (a b : Fin 3) :
    umat nu (lam * E) a b = lam * umat nu E a b := by
  fin_cases a <;> fin_cases b <;> · norm_num [umat]; try ring

theorem entryBtCB_smul (lam : ℚ) (C : Fin 3 → Fin 3 → ℚ) (u v : Fin 3 → Aff) :
    entryBtCB (fun a b => lam * C a b) u v
      = Quad.scale lam (entryBtCB C u v) := by
  simp only [entryBtCB, Quad.add, Quad.scale, Aff.mul, Quad.mk.injEq]
  and_intros <;> ring

theorem integrateSquare_smul (lam : ℚ) (q : Quad) (h : ℚ) :
    (Quad.scale lam q).integrateSquare h = lam * q.integrateSquare h := by
  simp only [Quad.scale, Quad.integrateSquare]
  ring

/-- C8: the stiffness matrix is degree-1 homogeneous in the Young's
modulus `E`. -/
theorem K_homogeneous_in_E (nu E h lam : ℚ) (i j : Fin 8) :
    K nu (lam * E) h i j = lam * K nu E h i j := by
  have hC : umat nu (lam * E) = fun a b => lam * umat nu E a b := by
    funext a b
    exact umat_smul_E nu E lam a b
  show (entryBtCB (umat nu (lam * E)) (fun a => stdm4 h a i)
    (fun a => stdm4 h a j)).integrateSquare h = _
  rw [hC, entryBtCB_smul, integrateSquare_smul]
  rfl

/-- C4: structure of the strain-displacement matrix: row 0 carries
x-derivatives of the shape functions at even columns, row 1 carries
y-derivatives at odd columns, row 2 carries both crosswise; remaining
entries vanish.  The derivative entries are stated as honest
`HasDerivAt` facts about the evaluation of `shape4`. -/
theorem stdm4_structure (x y h : ℚ) (hpos : 0 < h) (i : Fin 4) :
    HasDerivAt (fun t => (shape4 h i).eval t y)
      ((stdm4 h 0 ⟨2 * i.val, by have := i.isLt; omega⟩).eval x y) x ∧
    (stdm4 h 0 ⟨2 * i.val + 1, by have := i.isLt; omega⟩).eval x y = 0 ∧
    (stdm4 h 1 ⟨2 * i.val, by have := i.isLt; omega⟩).eval x y = 0 ∧
    HasDerivAt (fun t => (shape4 h i).eval x t)
      ((stdm4 h 1 ⟨2 * i.val + 1, by have := i.isLt; omega⟩).eval x y) y ∧
    HasDerivAt (fun t => (shape4 h i).eval x t)
      ((stdm4 h 2 ⟨2 * i.val, by have := i.isLt; omega⟩).eval x y) y ∧
    HasDerivAt (fun t => (shape4 h i).eval t y)
      ((stdm4 h 2 ⟨2 * i.val + 1, by have := i.isLt; omega⟩).eval x y) x := by
  fin_cases i <;>
    refine ⟨?_, ?_, ?_, ?_, ?_, ?_⟩ <;>
    first
      | exact Bilin.hasDerivAt_diffX _ x y
      | exact Bilin.hasDerivAt_diffY _ x y
      | norm_num [stdm4, Aff.zero, Aff.eval]

theorem stdm4_scale (h : ℚ) (hne : h ≠ 0) (a : Fin 3) (c : Fin 8) :
    stdm4 h a c = scaleAff h (stdm4 1 a c) := by
  fin_cases a <;> fin_cases c <;>
    simp only [stdm4, shape4, bilinProd, Bilin.scale, Bilin.diffX, Bilin.diffY,
      Aff.zero, scaleAff, Matrix.cons_val_zero, Matrix.cons_val_one,
      Matrix.head_cons, Matrix.cons_val_two, Matrix.cons_val_three,
      Matrix.tail_cons, Aff.mk.injEq] <;>
    norm_num <;> and_intros <;> field_simp <;> ring

theorem monoInt_zero (h : ℚ) : monoInt 0 h = 2 * h := by
  simp [monoInt]
  try ring

theorem monoInt_one (h : ℚ) : monoInt 1 h = 0 := by
  simp [monoInt]
  try ring

theorem monoInt_two (h : ℚ) : monoInt 2 h = 2 * h ^ 3 / 3 := by
  simp [monoInt]
  try ring

set_option maxHeartbeats 2000000 in
theorem integrate_entry_scale (C : Fin 3 → Fin 3 → ℚ) (u v : Fin 3 → Aff)
    (h : ℚ) (hne : h ≠ 0) :
    (entryBtCB C (fun a => scaleAff h (u a))
      (fun a => scaleAff h (v a))).integrateSquare h
      = (entryBtCB C u v).integrateSquare 1 := by
  simp only [entryBtCB, Quad.add, Quad.scale, Aff.mul, scaleAff,
    Quad.integrateSquare, monoInt_zero, monoInt_one, monoInt_two]
  field_simp
  ring

/-- C10: the integrated stiffness matrix does not depend on the element
half-width `h`. -/
theorem K_h_independent (nu E h : ℚ) (hnu : nu ^ 2 ≠ 1) (hpos : 0 < h)
    (i j : Fin 8) : K nu E h i j = K nu E 1 i j := by
  have hne : h ≠ 0 := ne_of_gt hpos
  have hu : (fun a => stdm4 h a i) = fun a => scaleAff h (stdm4 1 a i) := by
    funext a
    exact stdm4_scale h hne a i
  have hv : (fun a => stdm4 h a j) = fun a => scaleAff h (stdm4 1 a j) := by
    funext a
    exact stdm4_scale h hne a j
  show (entryBtCB (umat nu E) (fun a => stdm4 h a i)
    (fun a => stdm4 h a j)).integrateSquare h = _
  rw [hu, hv, integrate_entry_scale (umat nu E) _ _ h hne]
  rfl

theorem K_h_independent_witness :
    ((1/3 : ℚ) ^ 2 ≠ 1 ∧ 0 < (2 : ℚ)) ∧ K (1/3) 1 2 0 0 = K (1/3) 1 1 0 0 :=
  ⟨⟨by norm_num, by norm_num⟩,
   K_h_independent (1/3) 1 2 (by norm_num) (by norm_num) 0 0⟩

theorem integral_quadratic (a b c lo hi : ℝ) :
    (∫ t in lo..hi, (a + b * t + c * t ^ 2))
      = a * (hi - lo) + b * ((hi ^ 2 - lo ^ 2) / 2)
        + c * ((hi ^ 3 - lo ^ 3) / 3) := by
  have hf : IntervalIntegrable (fun t : ℝ => a + b * t)
      MeasureTheory.volume lo hi :=
    (by fun_prop : Continuous fun t : ℝ => a + b * t).intervalIntegrable lo hi
  have hg : IntervalIntegrable (fun t : ℝ => c * t ^ 2)
      MeasureTheory.volume lo hi :=
    (by fun_prop : Continuous fun t : ℝ => c * t ^ 2).intervalIntegrable lo hi
  have hfa : IntervalIntegrable (fun _ : ℝ => a)
      MeasureTheory.volume lo hi := intervalIntegrable_const
  have hfb : IntervalIntegrable (fun t : ℝ => b * t)
      MeasureTheory.volume lo hi :=
    (by fun_prop : Continuous fun t : ℝ => b * t).intervalIntegrable lo hi
  rw [intervalIntegral.integral_add hf hg,
    intervalIntegral.integral_add hfa hfb,
    intervalIntegral.integral_const, intervalIntegral.integral_const_mul,
    intervalIntegral.integral_const_mul, integral_id, integral_pow]
  simp only [smul_eq_mul]
  push_cast
  ring

/-- The coefficient-level `Quad.integrateSquare` agrees with the honest
double interval integral over `[-h, h] × [-h, h]`: it correctly embeds
the notebook's `sym.integrate(..., (x,-h,h), (y,-h,h))`. -/
theorem integrateSquare_spec (q : Quad) (h : ℚ) :
    (∫ y in (-(h : ℝ))..(h : ℝ), ∫ x in (-(h : ℝ))..(h : ℝ), q.evalR x y)
      = ((q.integrateSquare h : ℚ) : ℝ) := by
  have hin : ∀ y : ℝ, (fun x : ℝ => q.evalR x y)
      = fun x : ℝ => ((q.c00 : ℝ) + (q.c01 : ℝ) * y + (q.c02 : ℝ) * y ^ 2)
        + ((q.c10 : ℝ) + (q.c11 : ℝ) * y) * x + (q.c20 : ℝ) * x ^ 2 := by
    intro y
    funext x
    simp only [Quad.evalR]
    ring
  have houter : (fun y : ℝ => ∫ x in (-(h : ℝ))..(h : ℝ), q.evalR x y)
      = fun y : ℝ => ((q.c00 : ℝ) * (2 * (h : ℝ))
          + (q.c20 : ℝ) * (2 * (h : ℝ) ^ 3 / 3))
        + ((q.c01 : ℝ) * (2 * (h : ℝ))) * y
        + ((q.c02 : ℝ) * (2 * (h : ℝ))) * y ^ 2 := by
    funext y
    rw [hin y, integral_quadratic]
    ring
  rw [houter, integral_quadratic]
  simp only [Quad.integrateSquare, monoInt_zero, monoInt_one, monoInt_two]
  push_cast
  ring

/-- Conversion of `Fin.mk` literals to `OfNat` literals in `Fin 8`. -/
theorem fin8_mk_two (h : 2 < 8) : (⟨2, h⟩ : Fin 8) = 2 := rfl

/-- Conversion of a `Fin.mk` literal `3`. -/
theorem fin8_mk_three (h : 3 < 8) : (⟨3, h⟩ : Fin 8) = 3 := rfl

/-- Conversion of a `Fin.mk` literal `4`. -/
theorem fin8_mk_four (h : 4 < 8) : (⟨4, h⟩ : Fin 8) = 4 := rfl

/-- Conversion of a `Fin.mk` literal `5`. -/
theorem fin8_mk_five (h : 5 < 8) : (⟨5, h⟩ : Fin 8) = 5 := rfl

/-- Conversion of a `Fin.mk` literal `6`. -/
theorem fin8_mk_six (h : 6 < 8) : (⟨6, h⟩ : Fin 8) = 6 := rfl

/-- Conversion of a `Fin.mk` literal `7`. -/
theorem fin8_mk_seven (h : 7 < 8) : (⟨7, h⟩ : Fin 8) = 7 := rfl

theorem Kref_psd (v : Fin 8 → ℚ) : 0 ≤ quadForm Kref v := by
  have hsos : quadForm Kref v =
      (4/3) * (v 0 + (3/8) * v 1 - (5/8) * v 2 - (1/2) * v 4
        - (3/8) * v 5 + (1/8) * v 6) ^ 2
    + (55/48) * (v 1 + (3/11) * v 2 + (8/55) * v 3 - (12/55) * v 4
        - (23/55) * v 5 - (3/55) * v 6 - (8/11) * v 7) ^ 2
    + (8/11) * (v 2 - (3/4) * v 3 - (1/4) * v 4 - (1/4) * v 5
        - (3/4) * v 6 + v 7) ^ 2
    + (9/10) * (v 3 - (1/9) * v 4 - v 5 + (1/9) * v 6) ^ 2
    + (8/9) * (v 4 - v 6) ^ 2 := by
    simp only [quadForm, Fin.sum_univ_eight, Kref,
      Matrix.cons_val_zero, Matrix.cons_val_one, Matrix.head_cons,
      Matrix.cons_val_two, Matrix.cons_val_three, Matrix.cons_val_four,
      Matrix.tail_cons, vec8_five, vec8_six, vec8_seven]
    ring
  rw [hsos]
  positivity

theorem Kref_kernel (v : Fin 8 → ℚ) :
    (∀ i, mulVec8 Kref v i = 0) ↔
      ∃ a b c : ℚ, ∀ i, v i = a * transX i + b * transY i + c * rotMode i := by
  constructor
  · intro hv
    have h0 := hv 0
    have h1 := hv 1
    have h2 := hv 2
    have h3 := hv 3
    have h4 := hv 4
    simp only [mulVec8, Fin.sum_univ_eight, Kref,
      Matrix.cons_val_zero, Matrix.cons_val_one, Matrix.head_cons,
      Matrix.cons_val_two, Matrix.cons_val_three, Matrix.cons_val_four,
      Matrix.tail_cons, vec8_five, vec8_six, vec8_seven] at h0 h1 h2 h3 h4
    refine ⟨(v 0 + v 4) / 2, (v 1 + v 3) / 2, (v 4 - v 0) / 2, ?_⟩
    intro i
    fin_cases i
    · simp [transX, transY, rotMode]
      ring
    · simp [transX, transY, rotMode]
      linear_combination (1/8) * h0 + (5/16) * h1 - (1/16) * h2
        - (7/16) * h3 - (3/16) * h4
    · simp [transX, transY, rotMode]
      linear_combination (-3/4) * h0 + (1/8) * h1 + (3/8) * h2
        + (1/8) * h3 - (3/8) * h4
    · simp [transX, transY, rotMode]
      linear_combination (-1/8) * h0 - (5/16) * h1 + (1/16) * h2
        + (7/16) * h3 + (3/16) * h4
    · simp [transX, transY, rotMode]
      ring
    · simp [transX, transY, rotMode]
      linear_combination (-7/8) * h0 + (1/16) * h1 - (13/16) * h2
        - (11/16) * h3 + (1/16) * h4
    · simp [transX, transY, rotMode]
      linear_combination (-3/4) * h0 - (1/8) * h1 - (3/8) * h2
        - (1/8) * h3 - (9/8) * h4
    · simp [transX, transY, rotMode]
      linear_combination (7/8) * h0 - (13/16) * h1 + (9/16) * h2
        - (1/16) * h3 - (5/16) * h4
  · rintro ⟨a, b, c, hv⟩
    have ht1 : ∀ i, mulVec8 Kref transX i = 0 := by
      intro i
      fin_cases i <;>
        · simp only [fin8_mk_two, fin8_mk_three, fin8_mk_four, fin8_mk_five,
            fin8_mk_six, fin8_mk_seven, Fin.mk_zero, Fin.mk_one,
            mulVec8, Fin.sum_univ_eight, Kref, transX,
            Matrix.cons_val_zero, Matrix.cons_val_one, Matrix.head_cons,
            Matrix.cons_val_two, Matrix.cons_val_three, Matrix.cons_val_four,
            Matrix.tail_cons, vec8_five, vec8_six, vec8_seven]
          norm_num
    have ht2 : ∀ i, mulVec8 Kref transY i = 0 := by
      intro i
      fin_cases i <;>
        · simp only [fin8_mk_two, fin8_mk_three, fin8_mk_four, fin8_mk_five,
            fin8_mk_six, fin8_mk_seven, Fin.mk_zero, Fin.mk_one,
            mulVec8, Fin.sum_univ_eight, Kref, transY,
            Matrix.cons_val_zero, Matrix.cons_val_one, Matrix.head_cons,
            Matrix.cons_val_two, Matrix.cons_val_three, Matrix.cons_val_four,
            Matrix.tail_cons, vec8_five, vec8_six, vec8_seven]
          norm_num
    have hrot : ∀ i, mulVec8 Kref rotMode i = 0 := by
      intro i
      fin_cases i <;>
        · simp only [fin8_mk_two, fin8_mk_three, fin8_mk_four, fin8_mk_five,
            fin8_mk_six, fin8_mk_seven, Fin.mk_zero, Fin.mk_one,
            mulVec8, Fin.sum_univ_eight, Kref, rotMode,
            Matrix.cons_val_zero, Matrix.cons_val_one, Matrix.head_cons,
            Matrix.cons_val_two, Matrix.cons_val_three, Matrix.cons_val_four,
            Matrix.tail_cons, vec8_five, vec8_six, vec8_seven]
          norm_num
    intro i
    have hsplit : mulVec8 Kref v i
        = a * mulVec8 Kref transX i + b * mulVec8 Kref transY i
          + c * mulVec8 Kref rotMode i := by
      simp only [mulVec8, Finset.mul_sum]
      rw [← Finset.sum_add_distrib, ← Finset.sum_add_distrib]
      apply Finset.sum_congr rfl
      intro j hj
      rw [hv j]
      ring
    rw [hsplit, ht1 i, ht2 i, hrot i]
    ring

theorem rigid_modes_independent (a b c : ℚ)
    (hz : ∀ i, a * transX i + b * transY i + c * rotMode i = 0) :
    a = 0 ∧ b = 0 ∧ c = 0 := by
  have h0 := hz 0
  have h1 := hz 1
  have h4 := hz 4
  simp only [transX, transY, rotMode,
    Matrix.cons_val_zero, Matrix.cons_val_one, Matrix.head_cons,
    Matrix.cons_val_two, Matrix.cons_val_three, Matrix.cons_val_four,
    Matrix.tail_cons, vec8_five, vec8_six, vec8_seven] at h0 h1 h4
  refine ⟨by linarith, by linarith, by linarith⟩

theorem stdm4_structure_witness :
    0 < (1 : ℚ) ∧
    (HasDerivAt (fun t => (shape4 1 0).eval t 0) ((stdm4 1 0 0).eval 0 0) 0 ∧
     (stdm4 1 0 1).eval 0 0 = 0 ∧
     (stdm4 1 1 0).eval 0 0 = 0 ∧
     HasDerivAt (fun t => (shape4 1 0).eval 0 t) ((stdm4 1 1 1).eval 0 0) 0 ∧
     HasDerivAt (fun t => (shape4 1 0).eval 0 t) ((stdm4 1 2 0).eval 0 0) 0 ∧
     HasDerivAt (fun t => (shape4 1 0).eval t 0) ((stdm4 1 2 1).eval 0 0) 0) :=
  ⟨by norm_num, stdm4_structure 0 0 1 (by norm_num) 0⟩

/-- C1: at the reference parameters `nu = 1/3`, `E = 8/3`, `h = 1` the
computed stiffness matrix matches the printed 8×8 reference matrix to
3 significant digits, entry by entry; in particular the entries
`K[0,0] ≈ 1.33`, `K[0,1] ≈ 0.5`, `K[0,2] ≈ -0.833`, `K[0,4] ≈ -0.667`,
`K[0,6] ≈ 0.167`. -/
theorem K_matches_reference :
    (∀ i j, |K (1/3) (8/3) 1 i j - refMatrix i j| ≤ tol3sig (refMatrix i j)) ∧
    |K (1/3) (8/3) 1 0 0 - 133/100| ≤ 1/200 ∧
    |K (1/3) (8/3) 1 0 1 - 1/2| ≤ 1/200 ∧
    |K (1/3) (8/3) 1 0 2 - (-833/1000)| ≤ 1/2000 ∧
    |K (1/3) (8/3) 1 0 4 - (-667/1000)| ≤ 1/2000 ∧
    |K (1/3) (8/3) 1 0 6 - 167/1000| ≤ 1/2000 := by
  constructor
  · intro i j
    rw [Kref_eval]
    fin_cases i <;> fin_cases j <;>
      · simp only [fin8_mk_two, fin8_mk_three, fin8_mk_four, fin8_mk_five,
          fin8_mk_six, fin8_mk_seven, Fin.mk_zero, Fin.mk_one, Kref, refMatrix,
          tol3sig, Matrix.cons_val_zero, Matrix.cons_val_one, Matrix.head_cons,
          Matrix.cons_val_two, Matrix.cons_val_three, Matrix.cons_val_four,
          Matrix.tail_cons, vec8_five, vec8_six, vec8_seven]
        norm_num [abs_le]
  · refine ⟨?_, ?_, ?_, ?_, ?_⟩ <;>
      · rw [Kref_eval]
        simp only [Kref, Matrix.cons_val_zero, Matrix.cons_val_one,
          Matrix.head_cons, Matrix.cons_val_two, Matrix.cons_val_three,
          Matrix.cons_val_four, Matrix.tail_cons, vec8_five, vec8_six,
          vec8_seven]
        norm_num [abs_le]

/-- C9: at the reference parameters the stiffness matrix is positive
semidefinite, and its kernel is exactly the 3-dimensional span of the two
rigid translations and the rigid rotation (so, `K` being symmetric, it has
exactly 3 zero eigenvalues and rank 5). -/
theorem K_positive_semidefinite_rank5 :
    (∀ v : Fin 8 → ℚ, 0 ≤ quadForm (K (1/3) (8/3) 1) v) ∧
    (∀ v : Fin 8 → ℚ, (∀ i, mulVec8 (K (1/3) (8/3) 1) v i = 0) ↔
      ∃ a b c : ℚ, ∀ i, v i = a * transX i + b * transY i + c * rotMode i) ∧
    (∀ a b c : ℚ, (∀ i, a * transX i + b * transY i + c * rotMode i = 0) →
      a = 0 ∧ b = 0 ∧ c = 0) := by
  have hK : K (1/3) (8/3) 1 = Kref := by
    funext i j
    exact Kref_eval i j
  rw [hK]
  exact ⟨Kref_psd, Kref_kernel, rigid_modes_independent⟩
